import Mathlib

/-!
Verification of the segment layer of the `@sec-ant/qr-code-generator`
TypeScript package (classes `QrSegment` and `Mode`).

Modelling conventions:
* JS `number` values that the code treats as integers become `Int` (or `Nat`
  where the code guarantees non-negativity).
* A JS `bit` (the values `0`/`1`) becomes `Bool`.
* A function that can `throw` becomes an `Option`-valued function; `none`
  models the thrown `RangeError`, `some` the returned value.
* JS strings become `List Char` (Unicode scalar values).
* `QrSegment.getTotalBits` returns a JS `number` that is either a
  non-negative integer, `Infinity`, or (for versions where the
  character-count table lookup is out of bounds) `NaN`.  We model the result
  as `Option (Option Nat)`: the outer `none` is the undefined/`NaN` case,
  `some none` is `Infinity`, `some (some n)` a finite bit count.
-/

namespace QrGen

/-- Modelled from the spec: `appendBits` lives in `utils.js`, which is not
part of the sources at hand.  Per the spec every value is appended "in
exactly `len` bits" (big-endian, most significant bit first): `toBits v n`
is that `n`-bit representation of `v`. -/
def toBits (val len : Nat) : List Bool :=
  (List.range len).reverse.map (fun i => Nat.testBit val i)

/-- Modelled from the spec: `appendBits(val, len, bb)` pushes the `len`-bit
big-endian representation of `val` onto the bit buffer `bb`. -/
def appendBits (val len : Nat) (bb : List Bool) : List Bool :=
  bb ++ toBits val len

/-- Reads a bit list back as a big-endian natural number (used only in
specification statements, to say "these bits hold value v"). -/
def bitsToNat (bs : List Bool) : Nat :=
  bs.foldl (fun acc b => 2 * acc + (if b then 1 else 0)) 0

/-- `class Mode` has a private constructor and exactly five instances, so we
model it as a closed enumeration. -/
inductive Mode
  | NUMERIC
  | ALPHANUMERIC
  | BYTE
  | KANJI
  | ECI
  deriving DecidableEq, Repr

/-- The mode indicator bits of each `Mode` constant. -/
def Mode.modeBits : Mode → Nat
  | .NUMERIC => 0x1
  | .ALPHANUMERIC => 0x2
  | .BYTE => 0x4
  | .KANJI => 0x8
  | .ECI => 0x7

/-- The `numBitsCharCount` table of each `Mode` constant. -/
def Mode.numBitsCharCount : Mode → List Nat
  | .NUMERIC => [10, 12, 14]
  | .ALPHANUMERIC => [9, 11, 13]
  | .BYTE => [8, 16, 16]
  | .KANJI => [8, 10, 12]
  | .ECI => [0, 0, 0]

/-- `Math.floor((ver + 7) / 17)`: the version-tier index.  `Int.fdiv` is
floor division, matching `Math.floor` of the real quotient. -/
def tierIndex (ver : Int) : Int :=
  (ver + 7).fdiv 17

/-- `Mode.numCharCountBits(ver)` is
`this.numBitsCharCount[Math.floor((ver + 7) / 17)]`.  A JS array read at a
negative or too-large index yields `undefined`, which we model as `none`. -/
def Mode.numCharCountBits (m : Mode) (ver : Int) : Option Nat :=
  if 0 ≤ tierIndex ver then m.numBitsCharCount.get? (tierIndex ver).toNat
  else none

/-- The defined value of `numCharCountBits` (defaulting to 0); used in
specification statements for versions where the lookup is in bounds. -/
def ccBits (m : Mode) (ver : Int) : Nat :=
  (m.numCharCountBits ver).getD 0

/-- The fields of `class QrSegment`.  The JS object stores a defensive copy
of the bit array; with value semantics the copy is the list itself.  (The
aliasing behaviour itself is modelled separately with an explicit heap,
see `Heap` below.) -/
structure QrSegment where
  mode : Mode
  numChars : Int
  bitData : List Bool
  deriving DecidableEq, Repr

/-- The low-level `QrSegment` constructor: throws (`none`) iff
`numChars < 0`, otherwise stores the given attributes verbatim. -/
def QrSegment.make (mode : Mode) (numChars : Int) (bitData : List Bool) :
    Option QrSegment :=
  if numChars < 0 then none
  else some ⟨mode, numChars, bitData⟩

/-- The regex `/^[0-9]*$/` behind `QrSegment.isNumeric`: every character is
in the range 0 to 9. -/
def isNumeric (text : List Char) : Bool :=
  text.all (fun c => decide ('0' ≤ c) && decide (c ≤ '9'))

/-- `parseInt(s, 10)` on a string of decimal digits. -/
def parseDecimal (s : List Char) : Nat :=
  s.foldl (fun acc c => 10 * acc + (c.toNat - 48)) 0

/-- The character class of the regex `/^[A-Z0-9 $%*+./:-]*$/` behind
`QrSegment.isAlphanumeric`, enumerated in the regex's order (the ranges
`A-Z` and `0-9` expanded, trailing `-` a literal hyphen). -/
def ALPHANUMERIC_REGEX_CLASS : List Char :=
  "ABCDEFGHIJKLMNOPQRSTUVWXYZ0123456789 $%*+./:-".toList

/-- `QrSegment.isAlphanumeric`: every character matches the class. -/
def isAlphanumeric (text : List Char) : Bool :=
  text.all (fun c => decide (c ∈ ALPHANUMERIC_REGEX_CLASS))

/-- `QrSegment.ALPHANUMERIC_CHARSET`, where each character's value is its
index in this string. -/
def ALPHANUMERIC_CHARSET : List Char :=
  "0123456789ABCDEFGHIJKLMNOPQRSTUVWXYZ $%*+-./:".toList

/-- `ALPHANUMERIC_CHARSET.indexOf(c)` for characters of the charset
(`makeAlphanumeric` only reaches the lookup after validation, so the
JS `-1` case cannot occur there). -/
def charsetIndex (c : Char) : Nat :=
  ALPHANUMERIC_CHARSET.indexOf c

/-- The loop of `QrSegment.makeNumeric`: each iteration consumes
`n = min(remaining, 3)` digits and appends `parseInt` of the consumed run
in `n * 3 + 1` bits.  Unrolled on the three possible values of `n`:
three or more digits left consume 3 (10 bits), exactly two consume 2
(7 bits), exactly one consumes 1 (4 bits). -/
def makeNumericBits : List Char → List Bool
  | [] => []
  | [a] => toBits (parseDecimal [a]) 4
  | [a, b] => toBits (parseDecimal [a, b]) 7
  | a :: b :: c :: rest =>
    toBits (parseDecimal [a, b, c]) 10 ++ makeNumericBits rest

/-- `QrSegment.makeNumeric`: validation, then the bit-building loop, then
the low-level constructor. -/
def makeNumeric (digits : List Char) : Option QrSegment :=
  if isNumeric digits then
    QrSegment.make Mode.NUMERIC digits.length (makeNumericBits digits)
  else none

/-- The loop of `QrSegment.makeAlphanumeric`: groups of 2 characters give
`index(c1) * 45 + index(c2)` in 11 bits, a final single character its index
in 6 bits. -/
def makeAlphanumericBits : List Char → List Bool
  | c1 :: c2 :: rest =>
    toBits (charsetIndex c1 * 45 + charsetIndex c2) 11
      ++ makeAlphanumericBits rest
  | [c] => toBits (charsetIndex c) 6
  | [] => []

/-- `QrSegment.makeAlphanumeric`: validation, then the bit-building loop,
then the low-level constructor. -/
def makeAlphanumeric (text : List Char) : Option QrSegment :=
  if isAlphanumeric text then
    QrSegment.make Mode.ALPHANUMERIC text.length (makeAlphanumericBits text)
  else none

/-- `QrSegment.makeBytes`: each byte in 8 bits, in order. -/
def makeBytes (data : List Nat) : Option QrSegment :=
  QrSegment.make Mode.BYTE data.length (data.flatMap (fun b => toBits b 8))

/-- The UTF-8 bytes of one Unicode scalar value. -/
def utf8Bytes (c : Char) : List Nat :=
  let n := c.toNat
  if n < 0x80 then [n]
  else if n < 0x800 then [0xC0 + n / 64, 0x80 + n % 64]
  else if n < 0x10000 then
    [0xE0 + n / 4096, 0x80 + n / 64 % 64, 0x80 + n % 64]
  else
    [0xF0 + n / 262144, 0x80 + n / 4096 % 64, 0x80 + n / 64 % 64,
      0x80 + n % 64]

/-- `QrSegment.toUtf8ByteArray` percent-encodes the string with `encodeURI`
and then collects one byte per literal character and one per `%XX` triple;
for well-formed strings that round trip is exactly the UTF-8 encoding of
the string, which we state directly. -/
def toUtf8ByteArray (str : List Char) : List Nat :=
  str.flatMap utf8Bytes

/-- `QrSegment.makeEci`.  The bit patterns `0b10` and `0b110` are appended
in 2 and 3 bits. -/
def makeEci (assignVal : Int) : Option QrSegment :=
  if assignVal < 0 then none
  else if assignVal < 128 then
    QrSegment.make Mode.ECI 0 (appendBits assignVal.toNat 8 [])
  else if assignVal < 16384 then
    QrSegment.make Mode.ECI 0
      (appendBits assignVal.toNat 14 (appendBits 2 2 []))
  else if assignVal < 1000000 then
    QrSegment.make Mode.ECI 0
      (appendBits assignVal.toNat 21 (appendBits 6 3 []))
  else none

/-- `QrSegment.makeSegments`: pick the most efficient segment encoding. -/
def makeSegments (text : List Char) : Option (List QrSegment) :=
  if text = [] then some []
  else if isNumeric text then (makeNumeric text).map (fun s => [s])
  else if isAlphanumeric text then (makeAlphanumeric text).map (fun s => [s])
  else (makeBytes (toUtf8ByteArray text)).map (fun s => [s])

/-- The loop of `QrSegment.getTotalBits` with accumulator `result`.  The
outer `none` models the `NaN` arising from an out-of-bounds
`numCharCountBits` lookup, `some none` the early `return Infinity`,
`some (some n)` the final `result`.  `(2 : Int) ^ ccbits` is the JS
`1 << ccbits` (exact, since `ccbits ≤ 16`). -/
def getTotalBitsLoop : List QrSegment → Int → Nat → Option (Option Nat)
  | [], _, result => some (some result)
  | seg :: rest, version, result =>
    match seg.mode.numCharCountBits version with
    | none => none
    | some ccbits =>
      if (2 : Int) ^ ccbits ≤ seg.numChars then some none
      else getTotalBitsLoop rest version
        (result + (4 + ccbits + seg.bitData.length))

/-- `QrSegment.getTotalBits(segs, version)`. -/
def getTotalBits (segs : List QrSegment) (version : Int) :
    Option (Option Nat) :=
  getTotalBitsLoop segs version 0

/-- Spec-side definition (from the spec's words, for comparison with the
code): "digits grouped in runs of 3 from the left", the last group holding
1 or 2 digits when the length is not a multiple of 3. -/
def numericGroups : List Char → List (List Char)
  | [] => []
  | [a] => [[a]]
  | [a, b] => [[a, b]]
  | a :: b :: c :: rest => [a, b, c] :: numericGroups rest

/-- Spec-side definition (from the spec's words): characters "taken in
pairs", with a trailing single character when the length is odd. -/
def alphanumericGroups : List Char → List (List Char)
  | [] => []
  | [a] => [[a]]
  | a :: b :: rest => [a, b] :: alphanumericGroups rest

/-- Spec-side encoding of one alphanumeric group: a pair in 11 bits, a
single trailing character in 6 bits. -/
def alphanumericGroupBits : List Char → List Bool
  | [a, b] => toBits (45 * charsetIndex a + charsetIndex b) 11
  | [a] => toBits (charsetIndex a) 6
  | _ => []

/-!
An explicit-heap model of the JS array aliasing behaviour, used for the
defensive-copy property of the `QrSegment` constructor and `getData`.
A `Heap` maps references (allocation order numbers) to bit-array contents;
`alloc` returns a fresh reference, `write` mutates an existing array in
place.
-/

structure Heap where
  arr : Nat → List Bool
  next : Nat

/-- Allocate a fresh array holding `v`. -/
def Heap.alloc (h : Heap) (v : List Bool) : Nat × Heap :=
  (h.next, ⟨fun i => if i = h.next then v else h.arr i, h.next + 1⟩)

/-- Mutate the array at reference `r` in place. -/
def Heap.write (h : Heap) (r : Nat) (v : List Bool) : Heap :=
  ⟨fun i => if i = r then v else h.arr i, h.next⟩

/-- A `QrSegment` as the JS object stores it: the `bitData` field holds a
reference into the heap. -/
structure QrSegmentRef where
  mode : Mode
  numChars : Int
  bitDataRef : Nat

/-- The `QrSegment` constructor in the heap model: validate `numChars`,
then `this.bitData = bitData.slice()` — allocate a fresh copy of the
argument array's current contents. -/
def QrSegmentRef.construct (mode : Mode) (numChars : Int) (bitData : Nat)
    (h : Heap) : Option (QrSegmentRef × Heap) :=
  if numChars < 0 then none
  else
    let p := h.alloc (h.arr bitData)
    some (⟨mode, numChars, p.1⟩, p.2)

/-- `QrSegment.getData()` in the heap model: return a fresh copy of the
stored bit array. -/
def QrSegmentRef.getData (seg : QrSegmentRef) (h : Heap) : Nat × Heap :=
  h.alloc (h.arr seg.bitDataRef)

/-- A tiny concrete heap used to exercise the heap model: one allocated
array (reference 0) holding `[true, false]`. -/
def demoHeap : Heap :=
  ⟨fun i => if i = 0 then [true, false] else [], 1⟩

/-! ### Helper lemmas -/

theorem toBits_length (v n : Nat) : (toBits v n).length = n := by
  simp [toBits]

theorem toBits_succ (v n : Nat) :
    toBits v (n + 1) = v.testBit n :: toBits v n := by
  simp [toBits, List.range_succ]

theorem bitsToNat_foldl (acc : Nat) (bs : List Bool) :
    bs.foldl (fun a b => 2 * a + (if b then 1 else 0)) acc
      = acc * 2 ^ bs.length + bitsToNat bs := by
  induction bs generalizing acc with
  | nil => simp [bitsToNat]
  | cons b bs ih =>
    rw [List.foldl_cons, ih]
    have hb : bitsToNat (b :: bs)
        = (2 * 0 + (if b then 1 else 0)) * 2 ^ bs.length + bitsToNat bs := ih _
    rw [hb, List.length_cons, pow_succ]
    ring

theorem bitsToNat_cons (b : Bool) (bs : List Bool) :
    bitsToNat (b :: bs) = (if b then 1 else 0) * 2 ^ bs.length + bitsToNat bs := by
  show List.foldl _ (2 * 0 + (if b then 1 else 0)) bs = _
  rw [show (2 * 0 + (if b then 1 else 0)) = (if b then 1 else 0) by omega]
  exact bitsToNat_foldl _ bs

theorem bitsToNat_toBits_mod (v n : Nat) :
    bitsToNat (toBits v n) = v % 2 ^ n := by
  induction n with
  | zero => simp [toBits, bitsToNat, Nat.mod_one]
  | succ n ih =>
    rw [toBits_succ, bitsToNat_cons, toBits_length, ih]
    have hsplit : v % 2 ^ (n + 1) = v % 2 ^ n + 2 ^ n * (v / 2 ^ n % 2) := by
      rw [pow_succ, Nat.mod_mul]
    rw [hsplit, Nat.testBit_to_div_mod]
    rcases Nat.mod_two_eq_zero_or_one (v / 2 ^ n) with h | h
    · simp [h]
    · simp [h]
      omega

theorem bitsToNat_toBits (v n : Nat) (h : v < 2 ^ n) :
    bitsToNat (toBits v n) = v := by
  rw [bitsToNat_toBits_mod]
  exact Nat.mod_eq_of_lt h

theorem tierIndex_eq_ediv (ver : Int) : tierIndex ver = (ver + 7) / 17 :=
  Int.fdiv_eq_ediv _ (by norm_num)

theorem numCharCountBits_eq_ccBits (m : Mode) (ver : Int)
    (h1 : 1 ≤ ver) (h2 : ver ≤ 40) :
    m.numCharCountBits ver = some (ccBits m ver) := by
  have ht := tierIndex_eq_ediv ver
  have h0 : 0 ≤ tierIndex ver := by rw [ht]; omega
  have h3 : (tierIndex ver).toNat = 0 ∨ (tierIndex ver).toNat = 1 ∨
      (tierIndex ver).toNat = 2 := by rw [ht]; omega
  unfold ccBits Mode.numCharCountBits
  rw [if_pos h0]
  rcases h3 with h | h | h <;> rw [h] <;> cases m <;> rfl

theorem mem_regex_class_iff_mem_charset (c : Char) :
    c ∈ ALPHANUMERIC_REGEX_CLASS ↔ c ∈ ALPHANUMERIC_CHARSET := by
  have h1 : ∀ c ∈ ALPHANUMERIC_REGEX_CLASS, c ∈ ALPHANUMERIC_CHARSET := by
    decide
  have h2 : ∀ c ∈ ALPHANUMERIC_CHARSET, c ∈ ALPHANUMERIC_REGEX_CLASS := by
    decide
  exact ⟨h1 c, h2 c⟩

/-! ### The claims -/

/-- C2: for every version in [1,40], `Mode.numCharCountBits(version)`
returns the mode's tier-0 table entry for versions 1-9, the tier-1 entry
for versions 10-26 and the tier-2 entry for versions 27-40, where the
per-mode tables are NUMERIC [10,12,14], ALPHANUMERIC [9,11,13],
BYTE [8,16,16], KANJI [8,10,12], ECI [0,0,0]. -/
theorem numCharCountBits_tiers (m : Mode) (ver : Nat)
    (h2 : ver ≤ 40) (h1 : 1 ≤ ver) :
    Mode.NUMERIC.numBitsCharCount = [10, 12, 14] ∧
    Mode.ALPHANUMERIC.numBitsCharCount = [9, 11, 13] ∧
    Mode.BYTE.numBitsCharCount = [8, 16, 16] ∧
    Mode.KANJI.numBitsCharCount = [8, 10, 12] ∧
    Mode.ECI.numBitsCharCount = [0, 0, 0] ∧
    m.numCharCountBits (ver : Int) =
      some (m.numBitsCharCount.getD
        (if ver ≤ 9 then 0 else if ver ≤ 26 then 1 else 2) 0) := by
  refine ⟨rfl, rfl, rfl, rfl, rfl, ?_⟩
  have key : ∀ k : Nat, k < 40 →
      m.numCharCountBits ((k + 1 : Nat) : Int) =
        some (m.numBitsCharCount.getD
          (if k + 1 ≤ 9 then 0 else if k + 1 ≤ 26 then 1 else 2) 0) := by
    cases m <;> decide
  obtain ⟨k, rfl⟩ : ∃ k, ver = k + 1 := ⟨ver - 1, by omega⟩
  exact key k (by omega)

/-- C2 witness: version 9, 10 and 27 at mode NUMERIC hit tiers 0, 1, 2. -/
theorem numCharCountBits_tiers_witness :
    Mode.NUMERIC.numCharCountBits ((9 : Nat) : Int) =
      some (Mode.NUMERIC.numBitsCharCount.getD 0 0) := by
  have h := numCharCountBits_tiers Mode.NUMERIC 9 (by norm_num) (by norm_num)
  simpa using h.2.2.2.2.2

/-- C10: for every version in [1,40] the tier index
`Math.floor((version+7)/17)` lies in {0,1,2}, the table lookup is in
bounds, and the function returns one of the mode's table entries. -/
theorem numCharCountBits_inbounds (m : Mode) (ver : Nat)
    (h2 : ver ≤ 40) (h1 : 1 ≤ ver) :
    0 ≤ tierIndex (ver : Int) ∧ tierIndex (ver : Int) < 3 ∧
    m.numCharCountBits (ver : Int) = some (ccBits m (ver : Int)) ∧
    ccBits m (ver : Int) ∈ m.numBitsCharCount := by
  have key : ∀ k : Nat, k < 40 →
      0 ≤ tierIndex ((k + 1 : Nat) : Int) ∧
      tierIndex ((k + 1 : Nat) : Int) < 3 ∧
      m.numCharCountBits ((k + 1 : Nat) : Int)
        = some (ccBits m ((k + 1 : Nat) : Int)) ∧
      ccBits m ((k + 1 : Nat) : Int) ∈ m.numBitsCharCount := by
    cases m <;> decide
  obtain ⟨k, rfl⟩ : ∃ k, ver = k + 1 := ⟨ver - 1, by omega⟩
  exact key k (by omega)

/-- C10 witness: mode BYTE at version 40. -/
theorem numCharCountBits_inbounds_witness :
    0 ≤ tierIndex ((40 : Nat) : Int) ∧ tierIndex ((40 : Nat) : Int) < 3 ∧
    Mode.BYTE.numCharCountBits ((40 : Nat) : Int)
      = some (ccBits Mode.BYTE ((40 : Nat) : Int)) ∧
    ccBits Mode.BYTE ((40 : Nat) : Int) ∈ Mode.BYTE.numBitsCharCount :=
  numCharCountBits_inbounds Mode.BYTE 40 (by norm_num) (by norm_num)

/-- C9: the low-level constructor enforces no consistency between its
arguments: any `numChars ≥ 0` with any mode and any bit list succeeds and
stores the given values verbatim; only `numChars < 0` is rejected. -/
theorem make_lowlevel_unchecked (mode : Mode) (numChars : Int)
    (bitData : List Bool) :
    (numChars < 0 → QrSegment.make mode numChars bitData = none) ∧
    (0 ≤ numChars →
      QrSegment.make mode numChars bitData = some ⟨mode, numChars, bitData⟩) := by
  constructor
  · intro h
    simp [QrSegment.make, h]
  · intro h
    rw [QrSegment.make, if_neg (by omega)]

/-- C9 witness: mode BYTE with `numChars = 5` and an empty bit list is
accepted verbatim; `numChars = -1` is rejected. -/
theorem make_lowlevel_unchecked_witness :
    QrSegment.make Mode.BYTE 5 [] = some ⟨Mode.BYTE, 5, []⟩ ∧
    QrSegment.make Mode.BYTE (-1) [] = none :=
  ⟨(make_lowlevel_unchecked Mode.BYTE 5 []).2 (by norm_num),
   (make_lowlevel_unchecked Mode.BYTE (-1) []).1 (by norm_num)⟩

/-- C6: segment construction fails (producing no segment) exactly when its
validation fails: `makeNumeric` iff some character is outside 0-9,
`makeAlphanumeric` iff some character is outside the 45-character charset,
the low-level constructor iff `numChars < 0`. -/
theorem segment_validation (digits text : List Char) (mode : Mode)
    (numChars : Int) (bitData : List Bool) :
    ((∃ s, makeNumeric digits = some s) ↔ ∀ c ∈ digits, '0' ≤ c ∧ c ≤ '9') ∧
    ((∃ s, makeAlphanumeric text = some s) ↔
      ∀ c ∈ text, c ∈ ALPHANUMERIC_CHARSET) ∧
    ((∃ s, QrSegment.make mode numChars bitData = some s) ↔ 0 ≤ numChars) := by
  refine ⟨?_, ?_, ?_⟩
  · rw [makeNumeric]
    by_cases h : isNumeric digits = true
    · rw [if_pos h, QrSegment.make, if_neg (by omega)]
      simp only [isNumeric, List.all_eq_true] at h
      simpa using fun c hc => by simpa using h c hc
    · rw [if_neg h]
      simp only [isNumeric, List.all_eq_true] at h
      simpa using h
  · rw [makeAlphanumeric]
    by_cases h : isAlphanumeric text = true
    · rw [if_pos h, QrSegment.make, if_neg (by omega)]
      simp only [isAlphanumeric, List.all_eq_true] at h
      simp only [Option.some.injEq, exists_eq', true_iff]
      intro c hc
      exact (mem_regex_class_iff_mem_charset c).mp (by simpa using h c hc)
    · rw [if_neg h]
      simp only [isAlphanumeric, List.all_eq_true] at h
      constructor
      · intro hex
        simp at hex
      · intro hall
        exact absurd (fun c hc => by
          simpa using (mem_regex_class_iff_mem_charset c).mpr (hall c hc)) h
  · rw [QrSegment.make]
    by_cases h : numChars < 0
    · rw [if_pos h]
      simpa using by omega
    · rw [if_neg h]
      simpa using by omega

/-- C6 witness: concrete instantiation, a numeric string with a letter in
it, an alphanumeric string, and a non-negative character count. -/
theorem segment_validation_witness :
    ((∃ s, makeNumeric "1a".toList = some s) ↔
      ∀ c ∈ "1a".toList, '0' ≤ c ∧ c ≤ '9') ∧
    ((∃ s, makeAlphanumeric "A$".toList = some s) ↔
      ∀ c ∈ "A$".toList, c ∈ ALPHANUMERIC_CHARSET) ∧
    ((∃ s, QrSegment.make Mode.BYTE 0 [] = some s) ↔ (0 : Int) ≤ 0) :=
  segment_validation "1a".toList "A$".toList Mode.BYTE 0 []

/-- C5: `makeEci` produces an ECI segment with `numChars = 0` whose bit
data is the value in 8 bits for `0 ≤ v < 128`, the prefix `10` plus the
value in 14 bits for `128 ≤ v < 16384`, the prefix `110` plus the value in
21 bits for `16384 ≤ v < 1000000`, and fails exactly for `v < 0` or
`v ≥ 1000000`. -/
theorem makeEci_spec (v : Int) :
    (0 ≤ v → v < 128 → ∃ s, makeEci v = some s ∧ s.mode = Mode.ECI ∧
      s.numChars = 0 ∧ s.bitData.length = 8 ∧ bitsToNat s.bitData = v.toNat) ∧
    (128 ≤ v → v < 16384 → ∃ s, makeEci v = some s ∧ s.mode = Mode.ECI ∧
      s.numChars = 0 ∧ s.bitData.length = 16 ∧
      s.bitData.take 2 = [true, false] ∧
      bitsToNat (s.bitData.drop 2) = v.toNat) ∧
    (16384 ≤ v → v < 1000000 → ∃ s, makeEci v = some s ∧ s.mode = Mode.ECI ∧
      s.numChars = 0 ∧ s.bitData.length = 24 ∧
      s.bitData.take 3 = [true, true, false] ∧
      bitsToNat (s.bitData.drop 3) = v.toNat) ∧
    (v < 0 ∨ 1000000 ≤ v → makeEci v = none) := by
  refine ⟨?_, ?_, ?_, ?_⟩
  · intro h0 h1
    rw [makeEci, if_neg (by omega), if_pos h1, QrSegment.make,
      if_neg (by omega)]
    refine ⟨_, rfl, rfl, rfl, ?_, ?_⟩
    · simp [appendBits, toBits_length]
    · show bitsToNat ([] ++ toBits v.toNat 8) = v.toNat
      rw [List.nil_append]
      exact bitsToNat_toBits _ _ (by omega)
  · intro h0 h1
    rw [makeEci, if_neg (by omega), if_neg (by omega), if_pos h1,
      QrSegment.make, if_neg (by omega)]
    have htwo : appendBits 2 2 [] = [true, false] := by decide
    refine ⟨_, rfl, rfl, rfl, ?_, ?_, ?_⟩
    · simp [appendBits, toBits_length]
    · show (appendBits v.toNat 14 (appendBits 2 2 [])).take 2 = _
      rw [htwo]
      rfl
    · show bitsToNat ((appendBits v.toNat 14 (appendBits 2 2 [])).drop 2) = _
      rw [htwo]
      show bitsToNat (toBits v.toNat 14) = v.toNat
      exact bitsToNat_toBits _ _ (by omega)
  · intro h0 h1
    rw [makeEci, if_neg (by omega), if_neg (by omega), if_neg (by omega),
      if_pos h1, QrSegment.make, if_neg (by omega)]
    have hthree : appendBits 6 3 [] = [true, true, false] := by decide
    refine ⟨_, rfl, rfl, rfl, ?_, ?_, ?_⟩
    · simp [appendBits, toBits_length]
    · show (appendBits v.toNat 21 (appendBits 6 3 [])).take 3 = _
      rw [hthree]
      rfl
    · show bitsToNat ((appendBits v.toNat 21 (appendBits 6 3 [])).drop 3) = _
      rw [hthree]
      show bitsToNat (toBits v.toNat 21) = v.toNat
      exact bitsToNat_toBits _ _ (by omega)
  · intro h
    rcases h with h | h
    · rw [makeEci, if_pos h]
    · rw [makeEci, if_neg (by omega), if_neg (by omega), if_neg (by omega),
        if_neg (by omega)]

/-- C5 witness: the boundary values 127, 128, 16383, 16384, 999999 succeed
in the stated branches while 1000000 and -1 are rejected. -/
theorem makeEci_spec_witness :
    (∃ s, makeEci 127 = some s ∧ s.mode = Mode.ECI ∧ s.numChars = 0 ∧
      s.bitData.length = 8 ∧ bitsToNat s.bitData = 127) ∧
    (∃ s, makeEci 128 = some s ∧ s.mode = Mode.ECI ∧ s.numChars = 0 ∧
      s.bitData.length = 16 ∧ s.bitData.take 2 = [true, false] ∧
      bitsToNat (s.bitData.drop 2) = 128) ∧
    (∃ s, makeEci 16383 = some s ∧ s.mode = Mode.ECI ∧ s.numChars = 0 ∧
      s.bitData.length = 16 ∧ s.bitData.take 2 = [true, false] ∧
      bitsToNat (s.bitData.drop 2) = 16383) ∧
    (∃ s, makeEci 16384 = some s ∧ s.mode = Mode.ECI ∧ s.numChars = 0 ∧
      s.bitData.length = 24 ∧ s.bitData.take 3 = [true, true, false] ∧
      bitsToNat (s.bitData.drop 3) = 16384) ∧
    (∃ s, makeEci 999999 = some s ∧ s.mode = Mode.ECI ∧ s.numChars = 0 ∧
      s.bitData.length = 24 ∧ s.bitData.take 3 = [true, true, false] ∧
      bitsToNat (s.bitData.drop 3) = 999999) ∧
    makeEci 1000000 = none ∧ makeEci (-1) = none :=
  ⟨(makeEci_spec 127).1 (by norm_num) (by norm_num),
   (makeEci_spec 128).2.1 (by norm_num) (by norm_num),
   (makeEci_spec 16383).2.1 (by norm_num) (by norm_num),
   (makeEci_spec 16384).2.2.1 (by norm_num) (by norm_num),
   (makeEci_spec 999999).2.2.1 (by norm_num) (by norm_num),
   (makeEci_spec 1000000).2.2.2 (by norm_num),
   (makeEci_spec (-1)).2.2.2 (by norm_num)⟩

theorem getTotalBitsLoop_spec (version : Int)
    (h1 : 1 ≤ version) (h2 : version ≤ 40) :
    ∀ (segs : List QrSegment) (acc : Nat),
      getTotalBitsLoop segs version acc =
        if ∃ seg ∈ segs, (2 : Int) ^ ccBits seg.mode version ≤ seg.numChars
        then some none
        else some (some (acc + (segs.map
          (fun seg => 4 + ccBits seg.mode version + seg.bitData.length)).sum)) := by
  intro segs
  induction segs with
  | nil => simp [getTotalBitsLoop]
  | cons s rest ih =>
    intro acc
    rw [getTotalBitsLoop, numCharCountBits_eq_ccBits s.mode version h1 h2]
    show (if (2 : Int) ^ ccBits s.mode version ≤ s.numChars then some none
      else getTotalBitsLoop rest version
        (acc + (4 + ccBits s.mode version + s.bitData.length))) = _
    by_cases hc : (2 : Int) ^ ccBits s.mode version ≤ s.numChars
    · rw [if_pos hc]
      rw [if_pos ⟨s, List.mem_cons_self s rest, hc⟩]
    · rw [if_neg hc, ih]
      by_cases hr : ∃ seg ∈ rest,
          (2 : Int) ^ ccBits seg.mode version ≤ seg.numChars
      · rw [if_pos hr, if_pos ?_]
        obtain ⟨seg, hm, hs⟩ := hr
        exact ⟨seg, List.mem_cons_of_mem s hm, hs⟩
      · rw [if_neg hr, if_neg ?_]
        · rw [List.map_cons, List.sum_cons]
          simp only [Option.some.injEq]
          omega
        · rintro ⟨seg, hm, hs⟩
          rcases List.mem_cons.mp hm with rfl | hm
          · exact hc hs
          · exact hr ⟨seg, hm, hs⟩

/-- C1: for every segment list and version in [1,40], `getTotalBits`
returns the sum over all segments of
`4 + charCountBits(mode, version) + len(bitData)`, except that it returns
Infinity (`some none` in the model) whenever some segment's `numChars` is
`≥ 2^charCountBits(mode, version)`. -/
theorem getTotalBits_spec (segs : List QrSegment) (version : Int)
    (h1 : 1 ≤ version) (h2 : version ≤ 40) :
    getTotalBits segs version =
      if ∃ seg ∈ segs, (2 : Int) ^ ccBits seg.mode version ≤ seg.numChars
      then some none
      else some (some ((segs.map
        (fun seg => 4 + ccBits seg.mode version + seg.bitData.length)).sum)) := by
  rw [getTotalBits, getTotalBitsLoop_spec version h1 h2 segs 0]
  by_cases hr : ∃ seg ∈ segs, (2 : Int) ^ ccBits seg.mode version ≤ seg.numChars
  · rw [if_pos hr, if_pos hr]
  · rw [if_neg hr, if_neg hr, Nat.zero_add]

/-- C1 witness: a one-byte BYTE segment at version 1 costs
4 + 8 + 1 = 13 bits, while one with `numChars = 300 ≥ 2^8` yields
Infinity. -/
theorem getTotalBits_spec_witness :
    getTotalBits [⟨Mode.BYTE, 3, [true]⟩] 1 = some (some 13) ∧
    getTotalBits [⟨Mode.BYTE, 300, [true]⟩] 1 = some none := by
  constructor
  · rw [getTotalBits_spec [⟨Mode.BYTE, 3, [true]⟩] 1 (by norm_num)
      (by norm_num)]
    decide
  · rw [getTotalBits_spec [⟨Mode.BYTE, 300, [true]⟩] 1 (by norm_num)
      (by norm_num)]
    decide

theorem makeNumericBits_eq_groups (digits : List Char) :
    makeNumericBits digits =
      (numericGroups digits).flatMap
        (fun g => toBits (parseDecimal g) (3 * g.length + 1)) := by
  induction digits using makeNumericBits.induct with
  | case1 => rfl
  | case2 a => rfl
  | case3 a b => rfl
  | case4 a b c rest ih =>
    rw [makeNumericBits, numericGroups, List.flatMap_cons, ih]
    rfl

/-- C3: `makeNumeric` groups the digits in runs of 3 from the left and
appends, for each run of n digits, the decimal value of that run in
exactly 3n+1 bits; the segment has mode NUMERIC and `numChars` equal to
the number of digits. -/
theorem makeNumeric_spec (digits : List Char)
    (h : ∀ c ∈ digits, '0' ≤ c ∧ c ≤ '9') :
    ∃ s, makeNumeric digits = some s ∧ s.mode = Mode.NUMERIC ∧
      s.numChars = digits.length ∧
      s.bitData = (numericGroups digits).flatMap
        (fun g => toBits (parseDecimal g) (3 * g.length + 1)) := by
  have hb : isNumeric digits = true := by
    simp only [isNumeric, List.all_eq_true]
    intro c hc
    simpa using h c hc
  rw [makeNumeric, if_pos hb, QrSegment.make, if_neg (by omega)]
  exact ⟨_, rfl, rfl, rfl, makeNumericBits_eq_groups digits⟩

/-- C3 witness: `"0123567"` yields the groups 012, 356, 7 encoded in
10, 10 and 4 bits in that order. -/
theorem makeNumeric_spec_witness :
    ∃ s, makeNumeric "0123567".toList = some s ∧ s.mode = Mode.NUMERIC ∧
      s.numChars = 7 ∧
      s.bitData = toBits 12 10 ++ toBits 356 10 ++ toBits 7 4 := by
  obtain ⟨s, h1, h2, h3, h4⟩ := makeNumeric_spec "0123567".toList (by decide)
  refine ⟨s, h1, h2, by rw [h3]; rfl, ?_⟩
  rw [h4]
  decide

theorem makeAlphanumericBits_eq_groups (text : List Char) :
    makeAlphanumericBits text =
      (alphanumericGroups text).flatMap alphanumericGroupBits := by
  induction text using makeAlphanumericBits.induct with
  | case1 c1 c2 rest ih =>
    rw [makeAlphanumericBits, alphanumericGroups, List.flatMap_cons, ih,
      alphanumericGroupBits, Nat.mul_comm]
  | case2 c => rfl
  | case3 => rfl

/-- C4: `makeAlphanumeric` encodes consecutive pairs of characters as
`45 * index(c1) + index(c2)` in 11 bits each (indices into the exact
45-character charset string), followed, when the length is odd, by the
final character's index in 6 bits; the segment has mode ALPHANUMERIC and
`numChars` equal to the string length. -/
theorem makeAlphanumeric_spec (text : List Char)
    (h : ∀ c ∈ text, c ∈ ALPHANUMERIC_CHARSET) :
    ∃ s, makeAlphanumeric text = some s ∧ s.mode = Mode.ALPHANUMERIC ∧
      s.numChars = text.length ∧
      s.bitData = (alphanumericGroups text).flatMap alphanumericGroupBits := by
  have hb : isAlphanumeric text = true := by
    simp only [isAlphanumeric, List.all_eq_true]
    intro c hc
    simpa using (mem_regex_class_iff_mem_charset c).mpr (h c hc)
  rw [makeAlphanumeric, if_pos hb, QrSegment.make, if_neg (by omega)]
  exact ⟨_, rfl, rfl, rfl, makeAlphanumericBits_eq_groups text⟩

/-- C4 witness: `"AC-42"` yields the pairs AC, -4 in 11 bits each
(values 10·45+12 = 462 and 41·45+4 = 1849) and the trailing 2 in 6 bits. -/
theorem makeAlphanumeric_spec_witness :
    ∃ s, makeAlphanumeric "AC-42".toList = some s ∧
      s.mode = Mode.ALPHANUMERIC ∧ s.numChars = 5 ∧
      s.bitData = toBits 462 11 ++ toBits 1849 11 ++ toBits 2 6 := by
  obtain ⟨s, h1, h2, h3, h4⟩ := makeAlphanumeric_spec "AC-42".toList
    (by decide)
  refine ⟨s, h1, h2, by rw [h3]; rfl, ?_⟩
  rw [h4]
  decide

/-- C7: `makeSegments` returns the empty list for the empty string, one
NUMERIC segment when every character is a decimal digit, else one
ALPHANUMERIC segment when every character is in the alphanumeric charset,
else one BYTE segment built from the UTF-8 encoding of the string. -/
theorem makeSegments_spec (text : List Char) :
    (text = [] → makeSegments text = some []) ∧
    (text ≠ [] → (∀ c ∈ text, '0' ≤ c ∧ c ≤ '9') →
      ∃ s, makeSegments text = some [s] ∧ makeNumeric text = some s ∧
        s.mode = Mode.NUMERIC) ∧
    (¬ (∀ c ∈ text, '0' ≤ c ∧ c ≤ '9') →
      (∀ c ∈ text, c ∈ ALPHANUMERIC_CHARSET) →
      ∃ s, makeSegments text = some [s] ∧ makeAlphanumeric text = some s ∧
        s.mode = Mode.ALPHANUMERIC) ∧
    (¬ (∀ c ∈ text, '0' ≤ c ∧ c ≤ '9') →
      ¬ (∀ c ∈ text, c ∈ ALPHANUMERIC_CHARSET) →
      ∃ s, makeSegments text = some [s] ∧
        makeBytes (toUtf8ByteArray text) = some s ∧ s.mode = Mode.BYTE ∧
        s.bitData = (toUtf8ByteArray text).flatMap (fun b => toBits b 8)) := by
  refine ⟨?_, ?_, ?_, ?_⟩
  · rintro rfl
    rfl
  · intro hne hdig
    have hb : isNumeric text = true := by
      simp only [isNumeric, List.all_eq_true]
      intro c hc
      simpa using hdig c hc
    rw [makeSegments, if_neg hne, if_pos hb, makeNumeric, if_pos hb,
      QrSegment.make, if_neg (by omega)]
    exact ⟨_, rfl, rfl, rfl⟩
  · intro hnod hal
    have hne : text ≠ [] := by
      rintro rfl
      exact hnod (by simp)
    have hnum : ¬ isNumeric text = true := by
      intro hb
      simp only [isNumeric, List.all_eq_true] at hb
      exact hnod fun c hc => by simpa using hb c hc
    have hax : isAlphanumeric text = true := by
      simp only [isAlphanumeric, List.all_eq_true]
      intro c hc
      simpa using (mem_regex_class_iff_mem_charset c).mpr (hal c hc)
    rw [makeSegments, if_neg hne, if_neg hnum, if_pos hax, makeAlphanumeric,
      if_pos hax, QrSegment.make, if_neg (by omega)]
    exact ⟨_, rfl, rfl, rfl⟩
  · intro hnod hnoal
    have hne : text ≠ [] := by
      rintro rfl
      exact hnod (by simp)
    have hnum : ¬ isNumeric text = true := by
      intro hb
      simp only [isNumeric, List.all_eq_true] at hb
      exact hnod fun c hc => by simpa using hb c hc
    have hax : ¬ isAlphanumeric text = true := by
      intro hb
      simp only [isAlphanumeric, List.all_eq_true] at hb
      exact hnoal fun c hc =>
        (mem_regex_class_iff_mem_charset c).mp (by simpa using hb c hc)
    rw [makeSegments, if_neg hne, if_neg hnum, if_neg hax, makeBytes,
      QrSegment.make, if_neg (by omega)]
    exact ⟨_, rfl, rfl, rfl, rfl⟩

/-- C7 witness: `"12"` yields exactly one NUMERIC segment, and `"a?"`
(outside the charset) yields exactly one BYTE segment from the UTF-8
bytes. -/
theorem makeSegments_spec_witness :
    (∃ s, makeSegments "12".toList = some [s] ∧
      makeNumeric "12".toList = some s ∧ s.mode = Mode.NUMERIC) ∧
    (∃ s, makeSegments "a?".toList = some [s] ∧
      makeBytes (toUtf8ByteArray "a?".toList) = some s ∧
      s.mode = Mode.BYTE ∧
      s.bitData = (toUtf8ByteArray "a?".toList).flatMap
        (fun b => toBits b 8)) :=
  ⟨(makeSegments_spec "12".toList).2.1 (by decide) (by decide),
   (makeSegments_spec "a?".toList).2.2.2 (by decide) (by decide)⟩

/-- C8: the `QrSegment` constructor copies the bit array it is given and
`getData` copies on every read: in the heap model, writing to the argument
array after construction does not change what `getData` returns, writing
to an array returned by `getData` does not change later `getData` calls,
and every `getData` call returns the bit data supplied at construction. -/
theorem segment_defensive_copy (h : Heap) (r : Nat) (mode : Mode)
    (numChars : Int) (hr : r < h.next) (hn : 0 ≤ numChars) :
    ∃ seg h1, QrSegmentRef.construct mode numChars r h = some (seg, h1) ∧
      ((seg.getData h1).2).arr (seg.getData h1).1 = h.arr r ∧
      (∀ v, ((seg.getData (h1.write r v)).2).arr
        (seg.getData (h1.write r v)).1 = h.arr r) ∧
      (∀ v, ((seg.getData
          (((seg.getData h1).2).write (seg.getData h1).1 v)).2).arr
        (seg.getData
          (((seg.getData h1).2).write (seg.getData h1).1 v)).1 = h.arr r) := by
  refine ⟨⟨mode, numChars, h.next⟩, (h.alloc (h.arr r)).2, ?_, ?_, ?_, ?_⟩
  · rw [QrSegmentRef.construct, if_neg (by omega)]
    rfl
  · simp [QrSegmentRef.getData, Heap.alloc]
  · intro v
    simp [QrSegmentRef.getData, Heap.alloc, Heap.write]
    omega
  · intro v
    simp [QrSegmentRef.getData, Heap.alloc, Heap.write]

/-- C8 witness: the concrete one-array heap `demoHeap`. -/
theorem segment_defensive_copy_witness :
    ∃ seg h1,
      QrSegmentRef.construct Mode.NUMERIC 2 0 demoHeap = some (seg, h1) ∧
      ((seg.getData h1).2).arr (seg.getData h1).1 = demoHeap.arr 0 ∧
      (∀ v, ((seg.getData (h1.write 0 v)).2).arr
        (seg.getData (h1.write 0 v)).1 = demoHeap.arr 0) ∧
      (∀ v, ((seg.getData
          (((seg.getData h1).2).write (seg.getData h1).1 v)).2).arr
        (seg.getData
          (((seg.getData h1).2).write (seg.getData h1).1 v)).1
        = demoHeap.arr 0) :=
  segment_defensive_copy demoHeap 0 Mode.NUMERIC 2 (by decide) (by norm_num)

end QrGen
